import Mathlib

/-!
Verification of the resource-allocator simulation (`allocator.py`).

The source program simulates periodic repayment of interest-bearing
obligations ("nodes") against a fixed per-cycle capacity.  Numeric values
are modelled as rationals (`ℚ`), timestamps as integers counting days.

Source correspondence:
* `Node`               — one entry of `self.nodes` (a JSON object in the source);
* `isPaymentDue`       — lines 57–59 (`is_payment_due` flag);
* `dueStep` / `phase1` — lines 50–73 (accrual + minimum payment loop);
* `avalancheEligible` / `avalanche` — lines 76–84 (avalanche distribution loop);
* `runCycle`           — one iteration of the `while` body (lines 44–84);
* `simLoop` / `run_simulation`      — lines 33–97 (the `while` loop, the safety
  break at cycle > 480, and the history recording);
* `auditVerdict` / `generateReport` — lines 99–117 (`_generate_report`);
* `RawSpec` / `load_configuration`  — lines 14–31 (config loading and the
  avalanche sort; only `FileNotFoundError` is caught there, so a missing
  `overhead_factor` key surfaces as an uncaught `KeyError`, modelled as
  `Except.error`).
-/

/-- One obligation ("node") of the ledger, with all numeric fields present,
as accessed by `run_simulation` via `n['current_load']`, `n['overhead_factor']`,
`n['min_throughput']`, `n.get('cycle_mode')`, `n.get('scheduled_deprecation')`. -/
structure Node where
  id : String
  current_load : ℚ
  overhead_factor : ℚ
  min_throughput : ℚ
  cycle_mode : Option String
  scheduled_deprecation : Option ℤ
deriving DecidableEq

instance : Inhabited Node := ⟨⟨"", 0, 0, 0, none, none⟩⟩

/-- Line 57–59: `is_payment_due = True` unless the node's `cycle_mode` is
`"MONTHLY"` and the cycle index is odd. -/
def isPaymentDue (cycle : ℕ) (n : Node) : Bool :=
  !((n.cycle_mode == some "MONTHLY") && (cycle % 2 != 0))

/-- Lines 50–73, body of the first per-node loop: skip nodes with
non-positive load; otherwise, when payment is due, add interest
`load * overhead_factor / 24`, then pay `min(load, min_throughput)`,
subtracting the payment from the remaining capacity. -/
def dueStep (cycle : ℕ) (rem : ℚ) (n : Node) : Node × ℚ :=
  if n.current_load ≤ 0 then (n, rem)
  else if isPaymentDue cycle n then
    let interest := n.current_load * n.overhead_factor / 24
    let load1 := n.current_load + interest
    let payment := min load1 n.min_throughput
    ({ n with current_load := load1 - payment }, rem - payment)
  else (n, rem)

/-- Lines 50–73: the first `for node in self.nodes` loop, threading
`remaining_capacity` through the ledger in order. -/
def phase1 (cycle : ℕ) (rem : ℚ) : List Node → List Node × ℚ
  | [] => ([], rem)
  | n :: ns =>
    let p := dueStep cycle rem n
    let q := phase1 cycle p.2 ns
    (p.1 :: q.1, q.2)

/-- Line 81: a node may receive extra (avalanche) payment this cycle iff its
`cycle_mode` is `"SEMI_MONTHLY"` or the cycle index is even. -/
def avalancheEligible (cycle : ℕ) (n : Node) : Bool :=
  (n.cycle_mode == some "SEMI_MONTHLY") || (cycle % 2 == 0)

/-- Lines 76–84: the avalanche loop.  Iterates the ledger in order; breaks as
soon as `remaining_capacity ≤ 0`; pays `min(load, remaining_capacity)` to each
eligible node with positive load. -/
def avalanche (cycle : ℕ) (rem : ℚ) : List Node → List Node × ℚ
  | [] => ([], rem)
  | n :: ns =>
    if rem ≤ 0 then (n :: ns, rem)
    else if decide (0 < n.current_load) && avalancheEligible cycle n then
      let payment := min n.current_load rem
      let res := avalanche cycle (rem - payment) ns
      ({ n with current_load := n.current_load - payment } :: res.1, res.2)
    else
      let res := avalanche cycle rem ns
      (n :: res.1, res.2)

/-- One iteration of the `while` body (lines 44–84): reset
`remaining_capacity` to the per-cycle capacity, run the due/minimum-payment
loop, then the avalanche loop. -/
def runCycle (cap : ℚ) (cycle : ℕ) (nodes : List Node) : List Node :=
  let p := phase1 cycle cap nodes
  (avalanche cycle p.2 p.1).1

/-- Line 38/87: `sum(n['current_load'] for n in self.nodes)`. -/
def totalLoad (nodes : List Node) : ℚ :=
  (nodes.map (fun n => n.current_load)).sum

/-- Line 43: the `while` condition `any(n['current_load'] > 0 ...)`. -/
def loopCond (nodes : List Node) : Bool :=
  nodes.any (fun n => decide (0 < n.current_load))

/-- Terminal state of a run: falling through the `while` loop (all loads
cleared) is `COMPLETED`; the safety break at line 92 is `ABORTED`. -/
inductive SimState where
  | COMPLETED : SimState
  | ABORTED : SimState
deriving DecidableEq

/-- The observable outcome of `run_simulation`: terminal state, final ledger,
number of processed cycles, final `current_date`, and the recorded history of
`(date, total_load)` samples. -/
structure SimResult where
  state : SimState
  nodes : List Node
  cycles : ℕ
  finish_date : ℤ
  history : List (ℤ × ℚ)
deriving DecidableEq

/-- Lines 43–94: the simulation `while` loop.  Each iteration increments the
cycle counter, advances the date by 15 days, runs one cycle, appends a history
sample, and then applies the safety break `if cycle > 480: return`. -/
def simLoop (cap : ℚ) (cycle : ℕ) (date : ℤ) (nodes : List Node)
    (hist : List (ℤ × ℚ)) : SimResult :=
  if loopCond nodes then
    if _h480 : 480 < cycle + 1 then
      ⟨.ABORTED, runCycle cap (cycle + 1) nodes, cycle + 1, date + 15,
        hist ++ [(date + 15, totalLoad (runCycle cap (cycle + 1) nodes))]⟩
    else
      simLoop cap (cycle + 1) (date + 15) (runCycle cap (cycle + 1) nodes)
        (hist ++ [(date + 15, totalLoad (runCycle cap (cycle + 1) nodes))])
  else ⟨.COMPLETED, nodes, cycle, date, hist⟩
termination_by 481 - cycle
decreasing_by omega

/-- Lines 33–97: `run_simulation`, starting at cycle 0 with the initial
history sample `(start_date, total load)`. -/
def run_simulation (cap : ℚ) (start_date : ℤ) (nodes : List Node) : SimResult :=
  simLoop cap 0 start_date nodes [(start_date, totalLoad nodes)]

/-- The ledger after `k` processed cycles, when cycles are numbered starting
from `cycle + 1` (proof-side iterator for the states at period boundaries). -/
def iterFrom (cap : ℚ) (cycle : ℕ) : ℕ → List Node → List Node
  | 0, ns => ns
  | k + 1, ns => iterFrom cap (cycle + 1) k (runCycle cap (cycle + 1) ns)

/-- The history the simulation has recorded once `m` cycles are processed:
one sample per period boundary `k = 0, …, m`, at date `d0 + 15 k`, holding the
total load of the ledger state after `k` cycles. -/
def histUpTo (cap : ℚ) (d0 : ℤ) (ns0 : List Node) (m : ℕ) : List (ℤ × ℚ) :=
  (List.range (m + 1)).map
    (fun k : ℕ => (d0 + 15 * (k : ℤ), totalLoad (iterFrom cap 0 k ns0)))

/-- Everything the run-characterisation induction establishes about the value
of `run_simulation`. -/
def SimP (cap : ℚ) (d0 : ℤ) (ns0 : List Node) (r : SimResult) : Prop :=
  r.nodes = iterFrom cap 0 r.cycles ns0 ∧
  r.finish_date = d0 + 15 * (r.cycles : ℤ) ∧
  r.history = histUpTo cap d0 ns0 r.cycles ∧
  r.cycles ≤ 481 ∧
  (∀ k, k < r.cycles → loopCond (iterFrom cap 0 k ns0) = true) ∧
  (r.state = .COMPLETED →
    r.cycles ≤ 480 ∧ loopCond (iterFrom cap 0 r.cycles ns0) = false) ∧
  (r.state = .ABORTED → r.cycles = 481)

/-- Ghost accounting: the accrual (interest) the due step adds to node `n` in
the given cycle. -/
def dueAccr (cycle : ℕ) (n : Node) : ℚ :=
  if n.current_load ≤ 0 then 0
  else if isPaymentDue cycle n then n.current_load * n.overhead_factor / 24
  else 0

/-- Ghost accounting: the minimum payment the due step applies to node `n` in
the given cycle. -/
def dueMinPay (cycle : ℕ) (n : Node) : ℚ :=
  if n.current_load ≤ 0 then 0
  else if isPaymentDue cycle n then
    min (n.current_load + n.current_load * n.overhead_factor / 24) n.min_throughput
  else 0

/-- Ghost accounting: the per-node extra payments made by the avalanche loop,
aligned with the input ledger (0 for skipped nodes and after the break). -/
def avalanchePays (cycle : ℕ) (rem : ℚ) : List Node → List ℚ
  | [] => []
  | n :: ns =>
    if rem ≤ 0 then 0 :: avalanchePays cycle rem ns
    else if decide (0 < n.current_load) && avalancheEligible cycle n then
      let payment := min n.current_load rem
      payment :: avalanchePays cycle (rem - payment) ns
    else 0 :: avalanchePays cycle rem ns

/-- Ghost accounting: per-node accruals added in one full cycle. -/
def cycleAccrs (cycle : ℕ) (ns : List Node) : List ℚ :=
  ns.map (dueAccr cycle)

/-- Ghost accounting: per-node total payments (minimum + avalanche) applied in
one full cycle starting from capacity `cap`. -/
def cyclePays (cap : ℚ) (cycle : ℕ) (ns : List Node) : List ℚ :=
  List.zipWith (· + ·) (ns.map (dueMinPay cycle))
    (avalanchePays cycle (phase1 cycle cap ns).2 (phase1 cycle cap ns).1)

/-- Ghost accounting: total paid to node `i` over the first `m` cycles. -/
def paidUpTo (cap : ℚ) (ns0 : List Node) (m i : ℕ) : ℚ :=
  ((List.range m).map
    (fun k => (cyclePays cap (k + 1) (iterFrom cap 0 k ns0)).getD i 0)).sum

/-- Ghost accounting: total accrual added to node `i` over the first `m`
cycles. -/
def accrUpTo (cap : ℚ) (ns0 : List Node) (m i : ℕ) : ℚ :=
  ((List.range m).map
    (fun k => (cycleAccrs (k + 1) (iterFrom cap 0 k ns0)).getD i 0)).sum

/-- A node whose balance, accrual rate and minimum payment are all
non-negative. -/
def GoodNode (n : Node) : Prop :=
  0 ≤ n.current_load ∧ 0 ≤ n.overhead_factor ∧ 0 ≤ n.min_throughput

/-- Audit verdict of `_generate_report` (lines 112–117). -/
inductive Verdict where
  | PASS : Verdict
  | FAIL : Verdict
  | INFO : Verdict
deriving DecidableEq

/-- Lines 105–117: classification of one node against the run's finish date:
`PASS`/`FAIL` by the sign of `(maturity_date - finish_date).days` when a
`scheduled_deprecation` date is present, `INFO` otherwise. -/
def auditVerdict (finish_date : ℤ) (n : Node) : Verdict :=
  match n.scheduled_deprecation with
  | some maturity => if 0 ≤ maturity - finish_date then .PASS else .FAIL
  | none => .INFO

/-- Lines 99–117: `_generate_report` classifies every node of the ledger
against the single final finish date. -/
def generateReport (finish_date : ℤ) (nodes : List Node) : List Verdict :=
  nodes.map (auditVerdict finish_date)

/-- A raw node specification as found in the JSON configuration: every field
other than `id` may be absent. -/
structure RawSpec where
  id : String
  current_load : Option ℚ
  overhead_factor : Option ℚ
  min_throughput : Option ℚ
  cycle_mode : Option String
  scheduled_deprecation : Option ℤ
deriving DecidableEq

instance : Inhabited RawSpec := ⟨⟨"", none, none, none, none, none⟩⟩

/-- The sort key of line 27: `x['overhead_factor']` (only meaningful when the
key is present; the sort is only reached in that case). -/
def specKey (s : RawSpec) : ℚ := s.overhead_factor.getD 0

/-- The comparator modelling `sort(key=..., reverse=True)`: a stable sort
that places `a` before `b` whenever `key b ≤ key a` (descending). -/
def specLE (a b : RawSpec) : Bool := decide (specKey b ≤ specKey a)

/-- Lines 14–31: `load_configuration`.  Reads the capacity with default 0
(line 18), reads `active_nodes` with default `[]` (line 24), and sorts the
nodes by `overhead_factor` descending (line 27).  The sort evaluates
`x['overhead_factor']` on every node; a missing key raises `KeyError`, which
is not caught (only `FileNotFoundError` is, line 30), modelled as
`Except.error ()`.  No validation of the capacity or of the node collection
is performed. -/
def load_configuration (capacity : Option ℚ) (specs : List RawSpec) :
    Except Unit (ℚ × List RawSpec) :=
  if specs.all (fun s => s.overhead_factor.isSome) then
    .ok (capacity.getD 0, specs.mergeSort specLE)
  else .error ()

/-- Line 38: the first field access `run_simulation` performs,
`sum(n['current_load'] for n in self.nodes)`; a node missing the
`current_load` key raises `KeyError` here, modelled as `none`. -/
def initialTotalLoad : List RawSpec → Option ℚ
  | [] => some 0
  | s :: rest =>
    match s.current_load, initialTotalLoad rest with
    | some v, some t => some (v + t)
    | _, _ => none

/-! ### Basic structural lemmas -/

theorem loopCond_eq_false {ns : List Node} :
    loopCond ns = false ↔ ∀ n ∈ ns, n.current_load ≤ 0 := by
  simp [loopCond, List.any_eq_true, not_lt]

theorem loopCond_eq_true {ns : List Node} :
    loopCond ns = true ↔ ∃ n ∈ ns, 0 < n.current_load := by
  simp [loopCond, List.any_eq_true]

theorem phase1_fst_map (cycle : ℕ) :
    ∀ (rem : ℚ) (ns : List Node),
      (phase1 cycle rem ns).1 = ns.map (fun n => (dueStep cycle 0 n).1) := by
  intro rem ns
  induction ns generalizing rem with
  | nil => rfl
  | cons n ns ih =>
    simp only [phase1, List.map_cons, List.cons.injEq]
    refine ⟨?_, ih _⟩
    simp only [dueStep]
    split
    · rfl
    · split <;> rfl

theorem phase1_length (cycle : ℕ) (rem : ℚ) (ns : List Node) :
    (phase1 cycle rem ns).1.length = ns.length := by
  rw [phase1_fst_map]; simp

theorem avalanche_length (cycle : ℕ) :
    ∀ (rem : ℚ) (ns : List Node), (avalanche cycle rem ns).1.length = ns.length := by
  intro rem ns
  induction ns generalizing rem with
  | nil => rfl
  | cons n ns ih =>
    simp only [avalanche]
    split
    · rfl
    · split <;> simp [ih]

theorem runCycle_length (cap : ℚ) (cycle : ℕ) (ns : List Node) :
    (runCycle cap cycle ns).length = ns.length := by
  rw [runCycle, avalanche_length, phase1_length]

theorem iterFrom_length (cap : ℚ) :
    ∀ (k c : ℕ) (ns : List Node), (iterFrom cap c k ns).length = ns.length := by
  intro k
  induction k with
  | zero => intro c ns; rfl
  | succ k ih => intro c ns; rw [iterFrom, ih, runCycle_length]

theorem iterFrom_succ (cap : ℚ) :
    ∀ (k c : ℕ) (ns : List Node),
      iterFrom cap c (k + 1) ns = runCycle cap (c + k + 1) (iterFrom cap c k ns) := by
  intro k
  induction k with
  | zero => intro c ns; rfl
  | succ k ih =>
    intro c ns
    rw [iterFrom, ih, iterFrom]
    congr 1
    omega

theorem histUpTo_zero (cap : ℚ) (d0 : ℤ) (ns0 : List Node) :
    histUpTo cap d0 ns0 0 = [(d0, totalLoad ns0)] := by
  simp [histUpTo, List.range_succ, iterFrom]

theorem histUpTo_succ (cap : ℚ) (d0 : ℤ) (ns0 : List Node) (m : ℕ) :
    histUpTo cap d0 ns0 (m + 1) =
      histUpTo cap d0 ns0 m ++
        [(d0 + 15 * ((m : ℤ) + 1), totalLoad (iterFrom cap 0 (m + 1) ns0))] := by
  simp only [histUpTo, List.range_succ, List.map_append, List.map_cons, List.map_nil]
  push_cast
  ring_nf

/-! ### Characterisation of `run_simulation` -/

theorem simLoop_spec_aux (cap : ℚ) (d0 : ℤ) (ns0 : List Node) :
    ∀ (fuel c : ℕ), 481 - c ≤ fuel → c ≤ 480 →
    (∀ k, k < c → loopCond (iterFrom cap 0 k ns0) = true) →
    SimP cap d0 ns0
      (simLoop cap c (d0 + 15 * (c : ℤ)) (iterFrom cap 0 c ns0)
        (histUpTo cap d0 ns0 c)) := by
  intro fuel
  induction fuel with
  | zero => intro c h1 h2 _; omega
  | succ fuel ih =>
    intro c hfuel hc hall
    rw [simLoop]
    by_cases hcond : loopCond (iterFrom cap 0 c ns0) = true
    · rw [if_pos hcond]
      have hnodes : runCycle cap (c + 1) (iterFrom cap 0 c ns0) =
          iterFrom cap 0 (c + 1) ns0 := by
        rw [iterFrom_succ]; norm_num
      have hdate : d0 + 15 * (c : ℤ) + 15 = d0 + 15 * ((c : ℤ) + 1) := by ring
      have hall' : ∀ k, k < c + 1 → loopCond (iterFrom cap 0 k ns0) = true := by
        intro k hk
        rcases Nat.lt_succ_iff_lt_or_eq.mp hk with h | h
        · exact hall k h
        · subst h; exact hcond
      by_cases habort : 480 < c + 1
      · rw [dif_pos habort]
        have hhist : histUpTo cap d0 ns0 c ++
            [(d0 + 15 * (c : ℤ) + 15,
              totalLoad (runCycle cap (c + 1) (iterFrom cap 0 c ns0)))] =
            histUpTo cap d0 ns0 (c + 1) := by
          rw [hdate, hnodes, histUpTo_succ]
        refine ⟨hnodes, ?_, hhist, ?_, hall', ?_, ?_⟩
        · show d0 + 15 * (c : ℤ) + 15 = d0 + 15 * ((c : ℕ) + 1 : ℤ)
          ring
        · show c + 1 ≤ 481
          omega
        · intro h; exact SimState.noConfusion h
        · intro _
          show c + 1 = 481
          omega
      · rw [dif_neg habort]
        rw [hdate, hnodes, ← histUpTo_succ]
        exact ih (c + 1) (by omega) (by omega) hall'
    · rw [if_neg hcond]
      refine ⟨rfl, rfl, rfl, ?_, hall, ?_, ?_⟩
      · show c ≤ 481
        omega
      · intro _
        refine ⟨hc, ?_⟩
        show loopCond (iterFrom cap 0 c ns0) = false
        simpa using hcond
      · intro h; exact SimState.noConfusion h

theorem run_spec (cap : ℚ) (d0 : ℤ) (ns0 : List Node) :
    SimP cap d0 ns0 (run_simulation cap d0 ns0) := by
  have h := simLoop_spec_aux cap d0 ns0 481 0 (by omega) (by omega)
    (by intro k hk; omega)
  rw [run_simulation]
  simpa [histUpTo_zero, iterFrom] using h

theorem run_complete (cap : ℚ) (d0 : ℤ) (ns0 : List Node) (m : ℕ)
    (hm : m ≤ 480)
    (hall : ∀ k, k < m → loopCond (iterFrom cap 0 k ns0) = true)
    (hstop : loopCond (iterFrom cap 0 m ns0) = false) :
    (run_simulation cap d0 ns0).state = .COMPLETED ∧
    (run_simulation cap d0 ns0).cycles = m ∧
    (run_simulation cap d0 ns0).nodes = iterFrom cap 0 m ns0 ∧
    (run_simulation cap d0 ns0).finish_date = d0 + 15 * (m : ℤ) ∧
    (run_simulation cap d0 ns0).history = histUpTo cap d0 ns0 m := by
  obtain ⟨hn, hd, hh, hle, hlt, hcomp, habort⟩ := run_spec cap d0 ns0
  have hcyc : (run_simulation cap d0 ns0).cycles = m := by
    by_contra hne
    rcases Nat.lt_or_ge (run_simulation cap d0 ns0).cycles m with h | h
    · have := hall _ h
      cases hst : (run_simulation cap d0 ns0).state with
      | COMPLETED =>
        have := (hcomp hst).2
        rw [this] at *
        simp_all
      | ABORTED =>
        have := habort hst
        omega
    · have hlt' : m < (run_simulation cap d0 ns0).cycles := by omega
      have := hlt m hlt'
      rw [hstop] at this
      exact Bool.noConfusion this
  have hst : (run_simulation cap d0 ns0).state = .COMPLETED := by
    cases hst : (run_simulation cap d0 ns0).state with
    | COMPLETED => rfl
    | ABORTED => have := habort hst; omega
  exact ⟨hst, hcyc, by rw [hn, hcyc], by rw [hd, hcyc], by rw [hh, hcyc]⟩

theorem run_abort (cap : ℚ) (d0 : ℤ) (ns0 : List Node)
    (hall : ∀ k, k ≤ 480 → loopCond (iterFrom cap 0 k ns0) = true) :
    (run_simulation cap d0 ns0).state = .ABORTED ∧
    (run_simulation cap d0 ns0).cycles = 481 ∧
    (run_simulation cap d0 ns0).nodes = iterFrom cap 0 481 ns0 ∧
    (run_simulation cap d0 ns0).finish_date = d0 + 15 * 481 ∧
    (run_simulation cap d0 ns0).history = histUpTo cap d0 ns0 481 := by
  obtain ⟨hn, hd, hh, hle, hlt, hcomp, habort⟩ := run_spec cap d0 ns0
  have hst : (run_simulation cap d0 ns0).state = .ABORTED := by
    cases hst : (run_simulation cap d0 ns0).state with
    | COMPLETED =>
      obtain ⟨h480, hfalse⟩ := hcomp hst
      have := hall _ h480
      rw [hfalse] at this
      exact Bool.noConfusion this
    | ABORTED => rfl
  have hcyc : (run_simulation cap d0 ns0).cycles = 481 := habort hst
  refine ⟨hst, hcyc, by rw [hn, hcyc], ?_, by rw [hh, hcyc]⟩
  rw [hd, hcyc]; norm_num

/-! ### Non-negativity of balances -/

theorem dueStep_good (cycle : ℕ) (rem : ℚ) (n : Node) (h : GoodNode n) :
    GoodNode (dueStep cycle rem n).1 := by
  obtain ⟨hl, hr, hm⟩ := h
  rw [dueStep]
  split
  · exact ⟨hl, hr, hm⟩
  · split
    · refine ⟨?_, hr, hm⟩
      simp only
      have hin : 0 ≤ n.current_load * n.overhead_factor / 24 := by positivity
      have : min (n.current_load + n.current_load * n.overhead_factor / 24)
          n.min_throughput ≤ n.current_load + n.current_load * n.overhead_factor / 24 :=
        min_le_left _ _
      linarith
    · exact ⟨hl, hr, hm⟩

theorem phase1_good (cycle : ℕ) (rem : ℚ) (ns : List Node)
    (h : ∀ n ∈ ns, GoodNode n) :
    ∀ n' ∈ (phase1 cycle rem ns).1, GoodNode n' := by
  rw [phase1_fst_map]
  intro n' hn'
  obtain ⟨n, hn, rfl⟩ := List.mem_map.mp hn'
  exact dueStep_good cycle 0 n (h n hn)

theorem avalanche_good (cycle : ℕ) :
    ∀ (rem : ℚ) (ns : List Node), (∀ n ∈ ns, GoodNode n) →
      ∀ n' ∈ (avalanche cycle rem ns).1, GoodNode n' := by
  intro rem ns
  induction ns generalizing rem with
  | nil => intro _ n' hn'; exact absurd hn' (List.not_mem_nil n')
  | cons n tl ih =>
    intro h n' hn'
    rw [avalanche] at hn'
    split at hn'
    · exact h n' hn'
    · split at hn'
      · rcases List.mem_cons.mp hn' with rfl | htl
        · obtain ⟨hl, hr, hm⟩ := h n (List.mem_cons_self n tl)
          refine ⟨?_, hr, hm⟩
          simp only
          have : min n.current_load rem ≤ n.current_load := min_le_left _ _
          linarith
        · exact ih _ (fun m hm => h m (List.mem_cons_of_mem n hm)) n' htl
      · rcases List.mem_cons.mp hn' with rfl | htl
        · exact h _ (List.mem_cons_self _ _)
        · exact ih _ (fun m hm => h m (List.mem_cons_of_mem n hm)) n' htl

theorem runCycle_good (cap : ℚ) (cycle : ℕ) (ns : List Node)
    (h : ∀ n ∈ ns, GoodNode n) :
    ∀ n' ∈ runCycle cap cycle ns, GoodNode n' := by
  rw [runCycle]
  exact avalanche_good cycle _ _ (phase1_good cycle cap ns h)

theorem iterFrom_good (cap : ℚ) :
    ∀ (k c : ℕ) (ns : List Node), (∀ n ∈ ns, GoodNode n) →
      ∀ n' ∈ iterFrom cap c k ns, GoodNode n' := by
  intro k
  induction k with
  | zero => intro c ns h; exact h
  | succ k ih =>
    intro c ns h
    rw [iterFrom]
    exact ih (c + 1) _ (runCycle_good cap (c + 1) ns h)

/-! ### Avalanche ordering -/

theorem avalanche_nonpos (cycle : ℕ) (rem : ℚ) (h : rem ≤ 0) :
    ∀ ns : List Node, (avalanche cycle rem ns).1 = ns := by
  intro ns
  cases ns with
  | nil => rfl
  | cons n tl => rw [avalanche, if_pos h]

theorem avalanche_priority (cycle : ℕ) :
    ∀ (ns : List Node) (rem : ℚ) (i j : ℕ),
      (∀ n ∈ ns, 0 ≤ n.current_load) → i < j → j < ns.length →
      avalancheEligible cycle (ns.getD i default) = true →
      ((avalanche cycle rem ns).1.getD j default).current_load <
        (ns.getD j default).current_load →
      ((avalanche cycle rem ns).1.getD i default).current_load = 0 := by
  intro ns
  induction ns with
  | nil =>
    intro rem i j _ _ hj _ _
    simp at hj
  | cons n tl ih =>
    intro rem i j hnn hij hj heli hpaid
    obtain ⟨j', rfl⟩ : ∃ j', j = j' + 1 := ⟨j - 1, by omega⟩
    by_cases hrem : rem ≤ 0
    · rw [avalanche_nonpos cycle rem hrem] at hpaid
      exact absurd hpaid (lt_irrefl _)
    · by_cases hhead : (decide (0 < n.current_load) && avalancheEligible cycle n) = true
      · simp only [avalanche, if_neg hrem, if_pos hhead] at hpaid ⊢
        cases i with
        | zero =>
          rcases le_or_lt n.current_load rem with hle | hlt
          · rw [List.getD_cons_zero]
            simp only
            rw [min_eq_left hle, sub_self]
          · exfalso
            have hmin : min n.current_load rem = rem := min_eq_right hlt.le
            rw [hmin] at hpaid
            rw [sub_self, avalanche_nonpos cycle 0 le_rfl] at hpaid
            rw [List.getD_cons_succ, List.getD_cons_succ] at hpaid
            exact absurd hpaid (lt_irrefl _)
        | succ i' =>
          rw [List.getD_cons_succ] at heli ⊢
          rw [List.getD_cons_succ, List.getD_cons_succ] at hpaid
          exact ih _ i' j' (fun m hm => hnn m (List.mem_cons_of_mem n hm))
            (by omega) (by simpa using hj) heli hpaid
      · simp only [avalanche, if_neg hrem, if_neg hhead] at hpaid ⊢
        cases i with
        | zero =>
          rw [List.getD_cons_zero] at heli ⊢
          have hno : ¬ 0 < n.current_load := by
            intro hpos
            exact hhead (by simp [hpos, heli])
          have h0 : 0 ≤ n.current_load := hnn n (List.mem_cons_self n tl)
          linarith [le_antisymm (not_lt.mp hno) h0]
        | succ i' =>
          rw [List.getD_cons_succ] at heli ⊢
          rw [List.getD_cons_succ, List.getD_cons_succ] at hpaid
          exact ih _ i' j' (fun m hm => hnn m (List.mem_cons_of_mem n hm))
            (by omega) (by simpa using hj) heli hpaid

/-! ### Per-cycle accounting -/

theorem getD_zipWith {α β γ : Type} (f : α → β → γ) (as : List α) (bs : List β)
    (i : ℕ) (da : α) (db : β) (dc : γ) (ha : i < as.length) (hb : i < bs.length) :
    (List.zipWith f as bs).getD i dc = f (as.getD i da) (bs.getD i db) := by
  rw [List.getD_eq_getElem _ _ (by rw [List.length_zipWith]; omega),
      List.getElem_zipWith, List.getD_eq_getElem _ _ ha, List.getD_eq_getElem _ _ hb]

theorem getD_map {α β : Type} (g : α → β) (l : List α) (i : ℕ) (da : α) (db : β)
    (h : i < l.length) :
    (l.map g).getD i db = g (l.getD i da) := by
  rw [List.getD_eq_getElem _ _ (by simpa using h), List.getElem_map,
      List.getD_eq_getElem _ _ h]

theorem dueStep_fst_load (cycle : ℕ) (rem : ℚ) (n : Node) :
    (dueStep cycle rem n).1.current_load =
      n.current_load + dueAccr cycle n - dueMinPay cycle n := by
  simp only [dueStep, dueAccr, dueMinPay]
  split_ifs <;> simp

theorem avalanchePays_length (cycle : ℕ) :
    ∀ (rem : ℚ) (ns : List Node),
      (avalanchePays cycle rem ns).length = ns.length := by
  intro rem ns
  induction ns generalizing rem with
  | nil => rfl
  | cons n tl ih =>
    rw [avalanchePays]
    split
    · simp [ih]
    · split <;> simp [ih]

theorem zipWith_sub_pays_nonpos (cycle : ℕ) (rem : ℚ) (hrem : rem ≤ 0) :
    ∀ ns : List Node,
      List.zipWith (fun n p => { n with current_load := n.current_load - p }) ns
        (avalanchePays cycle rem ns) = ns := by
  intro ns
  induction ns with
  | nil => rfl
  | cons n tl ih =>
    rw [avalanchePays, if_pos hrem, List.zipWith_cons_cons, ih, sub_zero]

theorem avalanche_fst_zip (cycle : ℕ) :
    ∀ (rem : ℚ) (ns : List Node),
      (avalanche cycle rem ns).1 =
        List.zipWith (fun n p => { n with current_load := n.current_load - p }) ns
          (avalanchePays cycle rem ns) := by
  intro rem ns
  induction ns generalizing rem with
  | nil => rfl
  | cons n tl ih =>
    by_cases hrem : rem ≤ 0
    · rw [avalanche_nonpos cycle rem hrem, zipWith_sub_pays_nonpos cycle rem hrem]
    · rw [avalanche, avalanchePays, if_neg hrem, if_neg hrem]
      by_cases hcond : (decide (0 < n.current_load) && avalancheEligible cycle n) = true
      · rw [if_pos hcond, if_pos hcond]
        simp only [List.zipWith_cons_cons, List.cons.injEq, true_and]
        exact ih _
      · rw [if_neg hcond, if_neg hcond]
        simp only [List.zipWith_cons_cons, List.cons.injEq]
        refine ⟨?_, ih _⟩
        rw [sub_zero]

theorem runCycle_load_eq (cap : ℚ) (cycle : ℕ) (ns : List Node) (i : ℕ)
    (h : i < ns.length) :
    ((runCycle cap cycle ns).getD i default).current_load =
      (ns.getD i default).current_load + (cycleAccrs cycle ns).getD i 0 -
        (cyclePays cap cycle ns).getD i 0 := by
  have hlen1 : (phase1 cycle cap ns).1.length = ns.length := phase1_length cycle cap ns
  have hpl : (avalanchePays cycle (phase1 cycle cap ns).2
      (phase1 cycle cap ns).1).length = ns.length := by
    rw [avalanchePays_length, hlen1]
  have e0 : runCycle cap cycle ns =
      (avalanche cycle (phase1 cycle cap ns).2 (phase1 cycle cap ns).1).1 := rfl
  have hX : ((phase1 cycle cap ns).1.getD i default).current_load =
      (ns.getD i default).current_load + dueAccr cycle (ns.getD i default) -
        dueMinPay cycle (ns.getD i default) := by
    rw [phase1_fst_map, getD_map _ _ i default default h, dueStep_fst_load]
  have hA : (cycleAccrs cycle ns).getD i 0 = dueAccr cycle (ns.getD i default) := by
    rw [cycleAccrs, getD_map _ _ i default 0 h]
  have hP : (cyclePays cap cycle ns).getD i 0 =
      dueMinPay cycle (ns.getD i default) +
        (avalanchePays cycle (phase1 cycle cap ns).2
          (phase1 cycle cap ns).1).getD i 0 := by
    rw [cyclePays, getD_zipWith _ _ _ i 0 0 0 (by simpa using h) (by omega),
        getD_map _ _ i default 0 h]
  rw [e0, avalanche_fst_zip,
      getD_zipWith _ _ _ i default 0 default (by omega) (by omega)]
  simp only
  rw [hX, hA, hP]
  ring

theorem accrUpTo_succ (cap : ℚ) (ns0 : List Node) (m i : ℕ) :
    accrUpTo cap ns0 (m + 1) i =
      accrUpTo cap ns0 m i +
        (cycleAccrs (m + 1) (iterFrom cap 0 m ns0)).getD i 0 := by
  simp [accrUpTo, List.range_succ]

theorem paidUpTo_succ (cap : ℚ) (ns0 : List Node) (m i : ℕ) :
    paidUpTo cap ns0 (m + 1) i =
      paidUpTo cap ns0 m i +
        (cyclePays cap (m + 1) (iterFrom cap 0 m ns0)).getD i 0 := by
  simp [paidUpTo, List.range_succ]

theorem iterFrom_load_eq (cap : ℚ) (ns0 : List Node) :
    ∀ (m i : ℕ), i < ns0.length →
      ((iterFrom cap 0 m ns0).getD i default).current_load =
        (ns0.getD i default).current_load + accrUpTo cap ns0 m i -
          paidUpTo cap ns0 m i := by
  intro m
  induction m with
  | zero =>
    intro i h
    simp [iterFrom, accrUpTo, paidUpTo]
  | succ m ih =>
    intro i h
    have hsnoc : iterFrom cap 0 (m + 1) ns0 =
        runCycle cap (m + 1) (iterFrom cap 0 m ns0) := by
      rw [iterFrom_succ]; norm_num
    rw [hsnoc, runCycle_load_eq _ _ _ i (by rw [iterFrom_length]; exact h),
        accrUpTo_succ, paidUpTo_succ, ih i h]
    ring

/-! ### Ledger ordering (configuration sort) -/

theorem specLE_trans (a b c : RawSpec) (hab : specLE a b = true)
    (hbc : specLE b c = true) : specLE a c = true := by
  simp only [specLE, decide_eq_true_eq] at hab hbc ⊢
  exact le_trans hbc hab

theorem specLE_total (a b : RawSpec) : (specLE a b || specLE b a) = true := by
  simp only [specLE, Bool.or_eq_true, decide_eq_true_eq]
  exact le_total (specKey b) (specKey a)

/-! ### Audit classification -/

theorem auditVerdict_some (finish : ℤ) (n : Node) (m : ℤ)
    (hs : n.scheduled_deprecation = some m) :
    auditVerdict finish n = if 0 ≤ m - finish then .PASS else .FAIL := by
  rw [auditVerdict, hs]

/-! ### Configuration loading -/

theorem initialTotalLoad_none (specs : List RawSpec) :
    initialTotalLoad specs = none ↔ ∃ s ∈ specs, s.current_load = none := by
  induction specs with
  | nil => simp [initialTotalLoad]
  | cons a l ih =>
    rw [initialTotalLoad]
    cases ha : a.current_load with
    | none => simp [ha]
    | some v =>
      cases hl : initialTotalLoad l with
      | none =>
        rw [hl] at ih
        simp only [ha, hl]
        obtain ⟨s, hs, h⟩ := ih.mp rfl
        constructor
        · intro _; exact ⟨s, List.mem_cons_of_mem a hs, h⟩
        · intro _; trivial
      | some t =>
        rw [hl] at ih
        simp only [ha, hl]
        constructor
        · intro h; exact Option.noConfusion h
        · rintro ⟨s, hs, hnone⟩
          rcases List.mem_cons.mp hs with rfl | hmem
          · rw [ha] at hnone; exact Option.noConfusion hnone
          · exact Option.noConfusion (ih.mpr ⟨s, hmem, hnone⟩)

/-! ### A concrete divergent configuration -/

theorem runCycle_stuck (c : ℕ) :
    runCycle 0 c [(⟨"d", 1, 0, 0, none, none⟩ : Node)] =
      [⟨"d", 1, 0, 0, none, none⟩] := by
  norm_num [runCycle, phase1, dueStep, isPaymentDue, avalanche, min_def]

theorem iterFrom_stuck :
    ∀ (k c : ℕ), iterFrom 0 c k [(⟨"d", 1, 0, 0, none, none⟩ : Node)] =
      [⟨"d", 1, 0, 0, none, none⟩] := by
  intro k
  induction k with
  | zero => intro c; rfl
  | succ k ih => intro c; rw [iterFrom, runCycle_stuck, ih]

/-! ### The claims -/

/-- Claim C1: for every configuration in which all nodes have non-negative
balance, accrual rate and minimum payment, every node's balance is
non-negative at every period boundary (the ledger state after the avalanche
step of each cycle, i.e. after each full `runCycle`), and in particular in
the final ledger of `run_simulation`.  Payments are capped at
`min(balance, amount)` in `dueStep` and `avalanche`, so no step drives a
balance below zero. -/
theorem claim_C1 (cap : ℚ) (d0 : ℤ) (ns0 : List Node)
    (hload : ∀ n ∈ ns0, 0 ≤ n.current_load)
    (hrate : ∀ n ∈ ns0, 0 ≤ n.overhead_factor)
    (hmin : ∀ n ∈ ns0, 0 ≤ n.min_throughput) :
    (∀ k, ∀ n ∈ iterFrom cap 0 k ns0, 0 ≤ n.current_load) ∧
    (∀ n ∈ (run_simulation cap d0 ns0).nodes, 0 ≤ n.current_load) := by
  have hg : ∀ n ∈ ns0, GoodNode n := fun n hn => ⟨hload n hn, hrate n hn, hmin n hn⟩
  constructor
  · intro k n hn
    exact (iterFrom_good cap k 0 ns0 hg n hn).1
  · intro n hn
    obtain ⟨hns, -, -, -, -, -, -⟩ := run_spec cap d0 ns0
    rw [hns] at hn
    exact (iterFrom_good cap _ 0 ns0 hg n hn).1

/-- Witness for C1 at capacity 100 and the single node
`{id := "a", current_load := 10, overhead_factor := 0, min_throughput := 0}`:
its balance after two processed periods is non-negative. -/
theorem claim_C1_witness :
    0 ≤ ((iterFrom 100 0 2 [(⟨"a", 10, 0, 0, none, none⟩ : Node)]).getD 0
      default).current_load := by
  have h := claim_C1 100 0 [(⟨"a", 10, 0, 0, none, none⟩ : Node)]
    (by intro n hn; rw [List.mem_singleton] at hn; subst hn; norm_num)
    (by intro n hn; rw [List.mem_singleton] at hn; subst hn; norm_num)
    (by intro n hn; rw [List.mem_singleton] at hn; subst hn; norm_num)
  refine h.1 2 _ ?_
  rw [List.getD_eq_getElem _ _ (by rw [iterFrom_length]; norm_num)]
  exact List.getElem_mem _

/-- Claim C3: the avalanche step never pays a later (lower-priority) node
while an earlier (higher-priority) node is cadence-eligible and retains a
positive balance: whenever the node at position `j` received an extra payment
(its load strictly decreased) and an earlier position `i < j` was
avalanche-eligible, the earlier node's balance after the step is exactly 0;
and the distribution does nothing once `remaining_capacity ≤ 0`. -/
theorem claim_C3 (cycle : ℕ) (rem : ℚ) (ns : List Node)
    (hnn : ∀ n ∈ ns, 0 ≤ n.current_load) :
    (∀ i j : ℕ, i < j → j < ns.length →
      avalancheEligible cycle (ns.getD i default) = true →
      ((avalanche cycle rem ns).1.getD j default).current_load <
        (ns.getD j default).current_load →
      ((avalanche cycle rem ns).1.getD i default).current_load = 0) ∧
    (rem ≤ 0 → (avalanche cycle rem ns).1 = ns) :=
  ⟨fun i j hij hj heli hpaid =>
    avalanche_priority cycle ns rem i j hnn hij hj heli hpaid,
   fun hrem => avalanche_nonpos cycle rem hrem ns⟩

/-- Witness for C3: at even cycle 2 with remaining capacity 5 over nodes with
loads 3 and 4, the second node is paid, and indeed the first (eligible) node
has been driven to exactly 0. -/
theorem claim_C3_witness :
    ((avalanche 2 5 [(⟨"a", 3, 0, 0, none, none⟩ : Node),
      ⟨"b", 4, 0, 0, none, none⟩]).1.getD 0 default).current_load = 0 := by
  have hav : (avalanche 2 5 [(⟨"a", 3, 0, 0, none, none⟩ : Node),
      ⟨"b", 4, 0, 0, none, none⟩]).1 =
      [⟨"a", 0, 0, 0, none, none⟩, ⟨"b", 2, 0, 0, none, none⟩] := by
    norm_num [avalanche, avalancheEligible, min_def]
  refine (claim_C3 2 5 _ ?_).1 0 1 (by norm_num) (by norm_num) rfl ?_
  · intro n hn
    rcases List.mem_cons.mp hn with rfl | hn
    · norm_num
    · rw [List.mem_singleton] at hn; subst hn; norm_num
  · rw [hav]
    norm_num

/-- Claim C4 counterexample: capacity 0 with one node of balance 1, accrual
rate 0 and minimum payment 0 is divergent (the ledger state is unchanged by
every cycle: its balance stays 1 > 0 forever).  The run does reach `ABORTED`
instead of looping, but only after fully processing cycle 481 — it records a
481st period sample and counts 481 processed periods, so a period whose
index exceeds the 480-period bound *is* processed, refuting "not after (no
period beyond the bound is processed)". -/
theorem claim_C4_counterexample :
    iterFrom 0 0 481 [(⟨"d", 1, 0, 0, none, none⟩ : Node)] =
      [⟨"d", 1, 0, 0, none, none⟩] ∧
    (run_simulation 0 0 [(⟨"d", 1, 0, 0, none, none⟩ : Node)]).state = .ABORTED ∧
    (run_simulation 0 0 [(⟨"d", 1, 0, 0, none, none⟩ : Node)]).cycles = 481 ∧
    (run_simulation 0 0 [(⟨"d", 1, 0, 0, none, none⟩ : Node)]).history.length
      = 482 := by
  have h := run_abort 0 0 [(⟨"d", 1, 0, 0, none, none⟩ : Node)]
    (by intro k _; rw [iterFrom_stuck]; rfl)
  refine ⟨iterFrom_stuck 481 0, h.1, h.2.1, ?_⟩
  rw [h.2.2.2.2]
  simp [histUpTo]

/-- Claim C4 (amended): for every configuration whose loop condition is still
true at every period boundary up to 480 (a divergent configuration within the
bounded horizon), `run_simulation` terminates in `ABORTED` rather than looping
forever; it aborts at the end of period 481 — the first period whose index
exceeds the 480-period semi-monthly safety bound — after fully processing that
period (481 processed periods, 482 history samples), and processes no period
after it. -/
theorem claim_C4 (cap : ℚ) (d0 : ℤ) (ns0 : List Node)
    (hall : ∀ k, k ≤ 480 → loopCond (iterFrom cap 0 k ns0) = true) :
    (run_simulation cap d0 ns0).state = .ABORTED ∧
    (run_simulation cap d0 ns0).cycles = 481 ∧
    (run_simulation cap d0 ns0).nodes = iterFrom cap 0 481 ns0 ∧
    (run_simulation cap d0 ns0).history.length = 482 := by
  obtain ⟨h1, h2, h3, -, h5⟩ := run_abort cap d0 ns0 hall
  exact ⟨h1, h2, h3, by rw [h5]; simp [histUpTo]⟩

/-- Witness for the amended C4, at the divergent configuration capacity 0,
one node of balance 1 with rate 0 and minimum payment 0. -/
theorem claim_C4_witness :
    (run_simulation 0 1000 [(⟨"d", 1, 0, 0, none, none⟩ : Node)]).state
      = .ABORTED ∧
    (run_simulation 0 1000 [(⟨"d", 1, 0, 0, none, none⟩ : Node)]).cycles = 481 ∧
    (run_simulation 0 1000 [(⟨"d", 1, 0, 0, none, none⟩ : Node)]).nodes =
      iterFrom 0 0 481 [(⟨"d", 1, 0, 0, none, none⟩ : Node)] ∧
    (run_simulation 0 1000 [(⟨"d", 1, 0, 0, none, none⟩ : Node)]).history.length
      = 482 :=
  claim_C4 0 1000 [(⟨"d", 1, 0, 0, none, none⟩ : Node)]
    (by intro k _; rw [iterFrom_stuck]; rfl)

/-- Claim C5 counterexample: a node whose cadence key is absent and whose
balance is 10 > 0 is not avalanche-eligible at the odd period index 1, and
with remaining capacity 5 > 0 the avalanche step leaves it entirely unpaid —
refuting "eligible to receive avalanche funds on odd period indices as well
as even ones" for default-cadence nodes. -/
theorem claim_C5_counterexample :
    avalancheEligible 1 ⟨"n", 10, 0, 0, none, none⟩ = false ∧
    (avalanche 1 5 [(⟨"n", 10, 0, 0, none, none⟩ : Node)]).1 =
      [⟨"n", 10, 0, 0, none, none⟩] ∧
    (0 : ℚ) < 10 ∧ (0 : ℚ) < 5 := by
  refine ⟨rfl, ?_, by norm_num, by norm_num⟩
  norm_num [avalanche, avalancheEligible]

/-- Claim C5 (amended): for a node whose cadence is absent, accrual and
minimum payment apply on every period index, but avalanche-extra-payment
eligibility holds exactly on even period indices. -/
theorem claim_C5 (cycle : ℕ) (n : Node) (h : n.cycle_mode = none) :
    isPaymentDue cycle n = true ∧
    (avalancheEligible cycle n = true ↔ cycle % 2 = 0) := by
  constructor
  · simp only [isPaymentDue, h]
    rfl
  · simp only [avalancheEligible, h]
    simp

/-- Witness for the amended C5 at period index 3. -/
theorem claim_C5_witness :
    isPaymentDue 3 ⟨"n", 10, 0, 0, none, none⟩ = true ∧
    (avalancheEligible 3 ⟨"n", 10, 0, 0, none, none⟩ = true ↔ 3 % 2 = 0) :=
  claim_C5 3 ⟨"n", 10, 0, 0, none, none⟩ rfl

/-- Claim C9: the audit classifies a node `PASS` exactly when it has a target
(`scheduled_deprecation`) date and the day difference target minus finish is
non-negative, `FAIL` exactly when it has a target date and that difference is
negative, and `INFO` exactly when it has none; the verdict is a function of
the single final finish date only. -/
theorem claim_C9 (finish : ℤ) (n : Node) :
    (auditVerdict finish n = .PASS ↔
      ∃ m, n.scheduled_deprecation = some m ∧ 0 ≤ m - finish) ∧
    (auditVerdict finish n = .FAIL ↔
      ∃ m, n.scheduled_deprecation = some m ∧ m - finish < 0) ∧
    (auditVerdict finish n = .INFO ↔ n.scheduled_deprecation = none) := by
  rcases hs : n.scheduled_deprecation with _ | m
  · simp [auditVerdict, hs]
  · rw [auditVerdict_some finish n m hs]
    by_cases hd : 0 ≤ m - finish
    · rw [if_pos hd]
      refine ⟨iff_of_true rfl ⟨m, rfl, hd⟩,
        iff_of_false (fun h => Verdict.noConfusion h) ?_,
        iff_of_false (fun h => Verdict.noConfusion h)
          (fun h => Option.noConfusion h)⟩
      rintro ⟨m', hm', hlt⟩
      rw [Option.some.injEq] at hm'
      omega
    · rw [if_neg hd]
      refine ⟨iff_of_false (fun h => Verdict.noConfusion h) ?_,
        iff_of_true rfl ⟨m, rfl, by omega⟩,
        iff_of_false (fun h => Verdict.noConfusion h)
          (fun h => Option.noConfusion h)⟩
      rintro ⟨m', hm', hge⟩
      rw [Option.some.injEq] at hm'
      omega

/-- Claim C10: every run records one history sample before the first period
(start date, sum of initial balances) and one per processed period, so the
history is exactly the samples at period boundaries `k = 0, …, cycles`:
`cycles + 1` samples, the `k`-th taken at `start + 15 k` days holding the sum
of all balances of the ledger state after `k` cycles. -/
theorem claim_C10 (cap : ℚ) (d0 : ℤ) (ns0 : List Node) :
    (run_simulation cap d0 ns0).history =
      (List.range ((run_simulation cap d0 ns0).cycles + 1)).map
        (fun k : ℕ => (d0 + 15 * (k : ℤ), totalLoad (iterFrom cap 0 k ns0))) ∧
    (run_simulation cap d0 ns0).history.length =
      (run_simulation cap d0 ns0).cycles + 1 := by
  obtain ⟨-, -, hh, -, -, -, -⟩ := run_spec cap d0 ns0
  exact ⟨hh, by rw [hh]; simp [histUpTo]⟩

/-- Claim C2: for every run that terminates in the `COMPLETED` state from
non-negative balances, accrual rates and minimum payments, and for each node
position, the sum over all processed periods of the payments applied to that
node (minimum payments plus avalanche payments, `paidUpTo`) equals the node's
starting balance plus the sum of all accrual amounts added to it
(`accrUpTo`) — exact rational-number conservation. -/
theorem claim_C2 (cap : ℚ) (d0 : ℤ) (ns0 : List Node)
    (hload : ∀ n ∈ ns0, 0 ≤ n.current_load)
    (hrate : ∀ n ∈ ns0, 0 ≤ n.overhead_factor)
    (hmin : ∀ n ∈ ns0, 0 ≤ n.min_throughput)
    (hC : (run_simulation cap d0 ns0).state = .COMPLETED) :
    ∀ i, i < ns0.length →
      paidUpTo cap ns0 (run_simulation cap d0 ns0).cycles i =
        (ns0.getD i default).current_load +
          accrUpTo cap ns0 (run_simulation cap d0 ns0).cycles i := by
  obtain ⟨-, -, -, -, -, hcomp, -⟩ := run_spec cap d0 ns0
  obtain ⟨-, hfalse⟩ := hcomp hC
  intro i hi
  have hmem : (iterFrom cap 0 (run_simulation cap d0 ns0).cycles ns0).getD i
      default ∈ iterFrom cap 0 (run_simulation cap d0 ns0).cycles ns0 := by
    rw [List.getD_eq_getElem _ _ (by rw [iterFrom_length]; exact hi)]
    exact List.getElem_mem _
  have hle : ((iterFrom cap 0 (run_simulation cap d0 ns0).cycles ns0).getD i
      default).current_load ≤ 0 :=
    (loopCond_eq_false.mp hfalse) _ hmem
  have hgood : GoodNode ((iterFrom cap 0 (run_simulation cap d0 ns0).cycles
      ns0).getD i default) :=
    iterFrom_good cap _ 0 ns0
      (fun n hn => ⟨hload n hn, hrate n hn, hmin n hn⟩) _ hmem
  have hz := le_antisymm hle hgood.1
  have hacc := iterFrom_load_eq cap ns0 (run_simulation cap d0 ns0).cycles i hi
  rw [hz] at hacc
  linarith

/-- Witness for C2: capacity 10, one node of balance 5, rate 0, minimum
payment 0; the run completes (in two periods: period 1 is odd, so the
default-cadence node receives no avalanche payment there) and conservation
holds for it. -/
theorem claim_C2_witness :
    paidUpTo 10 [(⟨"a", 5, 0, 0, none, none⟩ : Node)]
        (run_simulation 10 0 [(⟨"a", 5, 0, 0, none, none⟩ : Node)]).cycles 0 =
      (([(⟨"a", 5, 0, 0, none, none⟩ : Node)]).getD 0 default).current_load +
        accrUpTo 10 [(⟨"a", 5, 0, 0, none, none⟩ : Node)]
          (run_simulation 10 0 [(⟨"a", 5, 0, 0, none, none⟩ : Node)]).cycles
          0 := by
  have hw1 : runCycle 10 1 [(⟨"a", 5, 0, 0, none, none⟩ : Node)] =
      [⟨"a", 5, 0, 0, none, none⟩] := by
    norm_num [runCycle, phase1, dueStep, isPaymentDue, avalanche,
      avalancheEligible, min_def]
  have hw2 : runCycle 10 2 [(⟨"a", 5, 0, 0, none, none⟩ : Node)] =
      [⟨"a", 0, 0, 0, none, none⟩] := by
    norm_num [runCycle, phase1, dueStep, isPaymentDue, avalanche,
      avalancheEligible, min_def]
  have it1 : iterFrom 10 0 1 [(⟨"a", 5, 0, 0, none, none⟩ : Node)] =
      [⟨"a", 5, 0, 0, none, none⟩] := by
    simp [iterFrom, hw1]
  have it2 : iterFrom 10 0 2 [(⟨"a", 5, 0, 0, none, none⟩ : Node)] =
      [⟨"a", 0, 0, 0, none, none⟩] := by
    simp [iterFrom, hw1, hw2]
  have hcomp := run_complete 10 0 [(⟨"a", 5, 0, 0, none, none⟩ : Node)] 2
    (by omega)
    (by
      intro k hk
      interval_cases k
      · rfl
      · rw [it1]; rfl)
    (by rw [it2]; rfl)
  exact claim_C2 10 0 [(⟨"a", 5, 0, 0, none, none⟩ : Node)]
    (by intro n hn; rw [List.mem_singleton] at hn; subst hn; norm_num)
    (by intro n hn; rw [List.mem_singleton] at hn; subst hn; norm_num)
    (by intro n hn; rw [List.mem_singleton] at hn; subst hn; norm_num)
    hcomp.1 0 (by norm_num)

/-- Claim C6: for node specifications that all carry the accrual-rate key,
`load_configuration` succeeds and orders the ledger with a stable sort by
accrual rate descending: the result is a permutation of the input, pairwise
descending in the sort key, and any two input nodes with equal rate keep
their relative input order. -/
theorem claim_C6 (capacity : Option ℚ) (specs : List RawSpec)
    (hall : ∀ s ∈ specs, s.overhead_factor.isSome = true) :
    load_configuration capacity specs =
      .ok (capacity.getD 0, specs.mergeSort specLE) ∧
    (specs.mergeSort specLE).Perm specs ∧
    (specs.mergeSort specLE).Pairwise (fun a b => specKey b ≤ specKey a) ∧
    (∀ a b : RawSpec, [a, b].Sublist specs → specKey a = specKey b →
      [a, b].Sublist (specs.mergeSort specLE)) := by
  refine ⟨?_, List.mergeSort_perm specs specLE, ?_, ?_⟩
  · rw [load_configuration, if_pos (List.all_eq_true.mpr hall)]
  · have h := List.sorted_mergeSort specLE_trans specLE_total specs
    exact h.imp (fun hab => by simpa [specLE, decide_eq_true_eq] using hab)
  · intro a b hsub heq
    refine List.sublist_mergeSort specLE_trans specLE_total ?_ hsub
    refine List.pairwise_cons.mpr ⟨?_, List.pairwise_singleton _ _⟩
    intro y hy
    rw [List.mem_singleton] at hy
    subst hy
    simp [specLE, heq]

/-- Witness for C6 on two concrete rate-carrying specifications. -/
theorem claim_C6_witness :
    load_configuration (some 7)
        [(⟨"x", none, some 1, none, none, none⟩ : RawSpec),
         ⟨"y", none, some 2, none, none, none⟩] =
      .ok ((some (7 : ℚ)).getD 0,
        [(⟨"x", none, some 1, none, none, none⟩ : RawSpec),
         ⟨"y", none, some 2, none, none, none⟩].mergeSort specLE) :=
  (claim_C6 (some 7)
    [(⟨"x", none, some 1, none, none, none⟩ : RawSpec),
     ⟨"y", none, some 2, none, none, none⟩] (by decide)).1

/-- Claim C7 counterexample: a node specification with a balance and a
minimum payment but no accrual-rate field makes `load_configuration` fail
(the sort's key lookup raises `KeyError`, which only `FileNotFoundError`
handling would not catch) — loading does not succeed with the field
defaulted to 0. -/
theorem claim_C7_counterexample :
    load_configuration none
      [(⟨"a", some 5, none, some 1, none, none⟩ : RawSpec)] = .error () := rfl

/-- Claim C7 (amended): missing numeric fields are not defaulted to 0.
Loading succeeds exactly when every specification carries the accrual-rate
key (a missing one raises an uncaught `KeyError` in the sort), and the
simulation's first read — the initial total-load sum over `current_load` —
fails exactly when some specification lacks the balance key.  Only the
cadence and target-date fields are optional. -/
theorem claim_C7 (capacity : Option ℚ) (specs : List RawSpec) :
    ((∃ cfg, load_configuration capacity specs = .ok cfg) ↔
      ∀ s ∈ specs, s.overhead_factor.isSome = true) ∧
    (initialTotalLoad specs = none ↔ ∃ s ∈ specs, s.current_load = none) := by
  constructor
  · rw [load_configuration]
    by_cases hall : specs.all (fun s => s.overhead_factor.isSome) = true
    · rw [if_pos hall]
      exact iff_of_true ⟨_, rfl⟩ (List.all_eq_true.mp hall)
    · rw [if_neg hall]
      refine iff_of_false ?_ (fun h => hall (List.all_eq_true.mpr h))
      rintro ⟨cfg, h⟩
      exact Except.noConfusion h
  · exact initialTotalLoad_none specs

/-- Claim C8 counterexample: an empty node collection and a negative capacity
are accepted with no error: `load_configuration` returns them unchanged and
`run_simulation` is entered on them, completing immediately — there is no
loud configuration failure. -/
theorem claim_C8_counterexample :
    load_configuration (some (-1)) ([] : List RawSpec) = .ok (-1, []) ∧
    (run_simulation (-1) 0 ([] : List Node)).state = .COMPLETED ∧
    (run_simulation (-1) 0 ([] : List Node)).cycles = 0 := by
  constructor
  · rw [load_configuration]
    simp [List.mergeSort_nil]
  · rw [run_simulation, simLoop]
    simp [loopCond]

/-- Claim C8 (amended): the program performs no validation of an empty node
collection or of the capacity's sign: for every capacity value (negative
included) the empty collection loads successfully and `run_simulation` runs
on it, completing at once with zero processed periods and only the initial
history sample. -/
theorem claim_C8 (capacity : ℚ) (d0 : ℤ) :
    load_configuration (some capacity) ([] : List RawSpec) =
      .ok (capacity, []) ∧
    (run_simulation capacity d0 ([] : List Node)).state = .COMPLETED ∧
    (run_simulation capacity d0 ([] : List Node)).cycles = 0 ∧
    (run_simulation capacity d0 ([] : List Node)).history = [(d0, 0)] := by
  constructor
  · rw [load_configuration]
    simp [List.mergeSort_nil]
  · rw [run_simulation, simLoop]
    simp [loopCond, totalLoad]
